import Mathlib

/-!
Verification of the concentration-metrics core of the restaking-research
repository: the functions `calculate_hhi` and `calculate_gini`, which appear
verbatim in `src/mod1_operator_concentration_analysis.py` (lines 52-89) and
`src/mod1.5_avs_analysis.py` (lines 24-39).

Embedding choices:
- stake values are embedded as exact rationals `ℚ` (the Python code uses
  float64; the contract is stated over real arithmetic);
- the `np.nan` sentinel returned by `calculate_gini` in its degenerate cases
  is embedded as `Option.none`; a defined result `r` is `some r`;
- `np.sort` (ascending numerical sort) is embedded as `List.insertionSort`
  with `(· ≤ ·)`;
- the vectorised numpy expression `np.sum((2 * index - n - 1) * sorted_arr)`
  with `index = 1..n` is embedded as the recursion `rankSum n i l`, which
  walks the sorted list carrying the 1-based rank `i`;
- both Python functions are total on numeric input (they never raise), and the
  embedded functions are correspondingly total Lean functions.
-/

namespace Restaking

/-- Embedding of `calculate_hhi(shares)` from
`src/mod1_operator_concentration_analysis.py` lines 52-60 (identical in
`src/mod1.5_avs_analysis.py` lines 24-27):
if the sum of shares is zero return 0, otherwise normalize each share to a
percentage of the total, square each percentage and sum the squares. -/
def calculate_hhi (shares : List ℚ) : ℚ :=
  if shares.sum = 0 then 0
  else (shares.map (fun x => (x / shares.sum * 100) ^ 2)).sum

/-- Embedding of `np.sort` (ascending numerical sort) used by
`calculate_gini`. -/
def sortAsc (l : List ℚ) : List ℚ := l.insertionSort (· ≤ ·)

/-- Embedding of the numpy rank-weighted sum
`np.sum((2 * index - n - 1) * sorted_arr)` where `index` runs over the
1-based ranks `i, i+1, ...` of the list elements: each element `x` at rank
`i` contributes `(2 * i - n - 1) * x`. -/
def rankSum (n : ℚ) : ℚ → List ℚ → ℚ
  | _, [] => 0
  | i, x :: xs => (2 * i - n - 1) * x + rankSum n (i + 1) xs

/-- Embedding of `arr[arr >= 0]`: keep exactly the non-negative entries,
in order. -/
def nonnegFilter (arr : List ℚ) : List ℚ := arr.filter (fun x => 0 ≤ x)

/-- Embedding of `calculate_gini(arr)` from
`src/mod1_operator_concentration_analysis.py` lines 62-89 (identical in
`src/mod1.5_avs_analysis.py` lines 29-39): filter out negative values; if the
remainder is empty or sums to zero return the NaN sentinel (`none`);
otherwise sort ascending and return
`sum((2*i - n - 1) * x_i) / (n * sum(x))`, with a safeguard returning the
sentinel if the denominator is zero. -/
def calculate_gini (arr : List ℚ) : Option ℚ :=
  let a := nonnegFilter arr
  if a = [] ∨ a.sum = 0 then none
  else
    let sorted := sortAsc a
    let n : ℚ := sorted.length
    let numerator := rankSum n 1 sorted
    let denominator := n * sorted.sum
    if denominator = 0 then none
    else some (numerator / denominator)

/-- `calculate_gini` with the inner denominator safeguard removed: used to
state that the safeguard branch is dead code (claim C10). -/
def calculate_gini_unguarded (arr : List ℚ) : Option ℚ :=
  let a := nonnegFilter arr
  if a = [] ∨ a.sum = 0 then none
  else
    let sorted := sortAsc a
    let n : ℚ := sorted.length
    some (rankSum n 1 sorted / (n * sorted.sum))

/-- The spec's rank-based Gini estimator, written from the spec's words for
the already-filtered value collection: "sort ascending, assign 1-based ranks
`i = 1..n`, compute `sum((2*i - n - 1) * value_i) / (n * sum(values))`". -/
def giniSpecFormula (values : List ℚ) : ℚ :=
  let sorted := values.insertionSort (· ≤ ·)
  rankSum sorted.length 1 sorted / (sorted.length * values.sum)

/-- The rank-weighted numerator of the Gini formula for a (sorted) list:
ranks start at 1 and `n` is the list's own length. -/
def giniNum (l : List ℚ) : ℚ := rankSum l.length 1 l

/-! ### Helper lemmas about `rankSum` and sorting -/

theorem rankSum_rank_shift (n : ℚ) (l : List ℚ) :
    ∀ i : ℚ, rankSum n (i + 1) l = rankSum n i l + 2 * l.sum := by
  induction l with
  | nil => intro i; simp [rankSum]
  | cons x xs ih =>
    intro i
    simp only [rankSum, List.sum_cons, ih (i + 1)]
    ring

theorem rankSum_len_shift (n : ℚ) (l : List ℚ) :
    ∀ i : ℚ, rankSum (n + 1) i l = rankSum n i l - l.sum := by
  induction l with
  | nil => intro i; simp [rankSum]
  | cons x xs ih =>
    intro i
    simp only [rankSum, List.sum_cons, ih (i + 1)]
    ring

theorem giniNum_cons (a : ℚ) (t : List ℚ) :
    giniNum (a :: t) = giniNum t + t.sum - t.length * a := by
  simp only [giniNum, List.length_cons, rankSum]
  push_cast
  rw [show ((t.length : ℚ) + 1) = (t.length : ℚ) + 1 by ring,
    rankSum_rank_shift ((t.length : ℚ) + 1) t 1, rankSum_len_shift (t.length : ℚ) t 1]
  ring

theorem length_mul_le_sum (a : ℚ) (t : List ℚ) (h : ∀ x ∈ t, a ≤ x) :
    (t.length : ℚ) * a ≤ t.sum := by
  induction t with
  | nil => simp
  | cons x xs ih =>
    have hx : a ≤ x := h x (List.mem_cons_self x xs)
    have hxs := ih (fun y hy => h y (List.mem_cons_of_mem x hy))
    simp only [List.length_cons, List.sum_cons]
    push_cast
    linarith

theorem giniNum_nonneg (l : List ℚ) (h : l.Sorted (· ≤ ·)) : 0 ≤ giniNum l := by
  induction l with
  | nil => simp [giniNum, rankSum]
  | cons a t ih =>
    rw [List.sorted_cons] at h
    have h1 : (t.length : ℚ) * a ≤ t.sum := length_mul_le_sum a t h.1
    have h2 : 0 ≤ giniNum t := ih h.2
    rw [giniNum_cons]
    linarith

theorem rankSum_le_mul_sum (n b : ℚ) (l : List ℚ) :
    ∀ i : ℚ, (∀ x ∈ l, 0 ≤ x) → 2 * (i + l.length - 1) - n - 1 ≤ b →
      rankSum n i l ≤ b * l.sum := by
  induction l with
  | nil => intro i _ _; simp [rankSum]
  | cons x xs ih =>
    intro i hpos hcoeff
    have hlen : (0 : ℚ) ≤ xs.length := by positivity
    have hx : (0 : ℚ) ≤ x := hpos x (List.mem_cons_self x xs)
    have hcoeff' : 2 * ((i + 1) + xs.length - 1) - n - 1 ≤ b := by
      simp only [List.length_cons] at hcoeff
      push_cast at hcoeff
      linarith
    have hhead : 2 * i - n - 1 ≤ b := by
      simp only [List.length_cons] at hcoeff
      push_cast at hcoeff
      linarith
    have htail := ih (i + 1) (fun y hy => hpos y (List.mem_cons_of_mem x hy)) hcoeff'
    simp only [rankSum, List.sum_cons]
    have : (2 * i - n - 1) * x ≤ b * x := by nlinarith
    linarith [this, htail]

theorem giniNum_le (l : List ℚ) (h : ∀ x ∈ l, 0 ≤ x) :
    giniNum l ≤ ((l.length : ℚ) - 1) * l.sum := by
  apply rankSum_le_mul_sum
  · exact h
  · ring_nf
    linarith

theorem sum_of_all_eq (x : ℚ) (l : List ℚ) (h : ∀ y ∈ l, y = x) :
    l.sum = l.length * x := by
  induction l with
  | nil => simp
  | cons a t ih =>
    have ha : a = x := h a (List.mem_cons_self a t)
    have ht := ih (fun y hy => h y (List.mem_cons_of_mem a hy))
    simp only [List.sum_cons, List.length_cons, ht, ha]
    push_cast
    ring

theorem giniNum_of_all_eq (x : ℚ) (l : List ℚ) (h : ∀ y ∈ l, y = x) :
    giniNum l = 0 := by
  induction l with
  | nil => simp [giniNum, rankSum]
  | cons a t ih =>
    have ha : a = x := h a (List.mem_cons_self a t)
    have ht : ∀ y ∈ t, y = x := fun y hy => h y (List.mem_cons_of_mem a hy)
    rw [giniNum_cons, ih ht, sum_of_all_eq x t ht, ha]
    ring

theorem sortAsc_sorted (l : List ℚ) : (sortAsc l).Sorted (· ≤ ·) :=
  List.sorted_insertionSort _ l

theorem sortAsc_perm (l : List ℚ) : (sortAsc l).Perm l :=
  List.perm_insertionSort _ l

theorem sortAsc_sum (l : List ℚ) : (sortAsc l).sum = l.sum :=
  (sortAsc_perm l).sum_eq

theorem sortAsc_length (l : List ℚ) : (sortAsc l).length = l.length :=
  (sortAsc_perm l).length_eq

theorem nonnegFilter_nonneg (l : List ℚ) : ∀ x ∈ nonnegFilter l, 0 ≤ x := by
  intro x hx
  have := List.of_mem_filter hx
  simpa using this

theorem nonnegFilter_sum_nonneg (l : List ℚ) : 0 ≤ (nonnegFilter l).sum :=
  List.sum_nonneg (nonnegFilter_nonneg l)

theorem sum_eq_zero_iff_of_nonneg (l : List ℚ) (h : ∀ x ∈ l, 0 ≤ x) :
    l.sum = 0 ↔ ∀ x ∈ l, x = 0 := by
  constructor
  · intro hz
    induction l with
    | nil => intro x hx; simp at hx
    | cons a t ih =>
      have ha : 0 ≤ a := h a (List.mem_cons_self a t)
      have htn : ∀ x ∈ t, 0 ≤ x := fun x hx => h x (List.mem_cons_of_mem a hx)
      have hts : 0 ≤ t.sum := List.sum_nonneg htn
      simp only [List.sum_cons] at hz
      have ha0 : a = 0 := by linarith
      have hts0 : t.sum = 0 := by linarith
      intro x hx
      rcases List.mem_cons.mp hx with hxa | hxt
      · exact hxa.trans ha0
      · exact ih (fun y hy => h y (List.mem_cons_of_mem a hy)) hts0 x hxt
  · exact List.sum_eq_zero

theorem sum_sq_le_sq_sum (l : List ℚ) (h : ∀ x ∈ l, 0 ≤ x) :
    (l.map (fun x => x ^ 2)).sum ≤ l.sum ^ 2 := by
  induction l with
  | nil => simp
  | cons a t ih =>
    have ha : 0 ≤ a := h a (List.mem_cons_self a t)
    have htn : ∀ x ∈ t, 0 ≤ x := fun x hx => h x (List.mem_cons_of_mem a hx)
    have hts : 0 ≤ t.sum := List.sum_nonneg htn
    have := ih htn
    simp only [List.map_cons, List.sum_cons]
    nlinarith

theorem exists_pos_of_sum_pos (l : List ℚ) (hn : ∀ x ∈ l, 0 ≤ x)
    (hs : 0 < l.sum) : ∃ x ∈ l, 0 < x := by
  by_contra hcon
  push_neg at hcon
  have : l.sum = 0 :=
    (sum_eq_zero_iff_of_nonneg l hn).mpr
      (fun x hx => le_antisymm (hcon x hx) (hn x hx))
  linarith

theorem sum_sq_eq_sq_sum_iff (l : List ℚ) (h : ∀ x ∈ l, 0 ≤ x) (hs : 0 < l.sum) :
    (l.map (fun x => x ^ 2)).sum = l.sum ^ 2 ↔
      (l.filter (fun x => 0 < x)).length = 1 := by
  induction l with
  | nil => simp at hs
  | cons a t ih =>
    have ha : 0 ≤ a := h a (List.mem_cons_self a t)
    have htn : ∀ x ∈ t, 0 ≤ x := fun x hx => h x (List.mem_cons_of_mem a hx)
    have hts : 0 ≤ t.sum := List.sum_nonneg htn
    have hsq : (t.map (fun x => x ^ 2)).sum ≤ t.sum ^ 2 := sum_sq_le_sq_sum t htn
    rcases eq_or_lt_of_le ha with ha0 | hapos
    · -- head is zero: it contributes nothing to either side
      have hs' : 0 < t.sum := by
        simp only [List.sum_cons, ← ha0] at hs
        linarith
      simp only [List.sum_cons, ← ha0, List.map_cons, List.filter_cons]
      norm_num
      exact ih htn hs'
    · -- head is positive
      rcases eq_or_lt_of_le hts with hts0 | htspos
      · -- tail sums to zero: every tail element is zero
        have htz : ∀ x ∈ t, x = 0 :=
          (sum_eq_zero_iff_of_nonneg t htn).mp hts0.symm
        have hmap : (t.map (fun x => x ^ 2)).sum = 0 := by
          apply List.sum_eq_zero
          intro y hy
          rcases List.mem_map.mp hy with ⟨x, hx, hxy⟩
          rw [← hxy, htz x hx]
          ring
        have hfil : t.filter (fun x => 0 < x) = [] := by
          rw [List.filter_eq_nil_iff]
          intro x hx
          simp [htz x hx]
        simp only [List.sum_cons, List.map_cons, List.filter_cons, hmap, ← hts0,
          hfil, decide_eq_true_eq, if_pos hapos]
        constructor
        · intro _; simp
        · intro _; ring
      · -- tail has positive sum: both sides fail
        have hne : (t.map (fun x => x ^ 2)).sum ≠ (a + t.sum) ^ 2 - a ^ 2 := by
          intro heq
          nlinarith
        have hcnt : 1 ≤ (t.filter (fun x => 0 < x)).length := by
          rcases exists_pos_of_sum_pos t htn htspos with ⟨x, hx, hxpos⟩
          have : x ∈ t.filter (fun x => 0 < x) :=
            List.mem_filter.mpr ⟨hx, by simpa using hxpos⟩
          exact List.length_pos.mpr (List.ne_nil_of_mem this)
        simp only [List.sum_cons, List.map_cons, List.filter_cons,
          decide_eq_true_eq, if_pos hapos, List.length_cons]
        constructor
        · intro heq
          exfalso
          apply hne
          linarith [heq]
        · intro heq
          omega

theorem calculate_hhi_of_sum_zero (l : List ℚ) (h : l.sum = 0) :
    calculate_hhi l = 0 := by
  simp only [calculate_hhi, if_pos h]

theorem calculate_hhi_eq (l : List ℚ) (h : l.sum ≠ 0) :
    calculate_hhi l = 10000 / l.sum ^ 2 * (l.map (fun x => x ^ 2)).sum := by
  simp only [calculate_hhi, if_neg h]
  rw [show (l.map (fun x => (x / l.sum * 100) ^ 2)) =
      l.map (fun x => 10000 / l.sum ^ 2 * x ^ 2) from
    List.map_congr_left (fun x _ => by field_simp; ring)]
  exact List.sum_map_mul_left l (fun x => x ^ 2) (10000 / l.sum ^ 2)

theorem calculate_gini_none (l : List ℚ)
    (h : nonnegFilter l = [] ∨ (nonnegFilter l).sum = 0) :
    calculate_gini l = none := by
  simp only [calculate_gini, if_pos h]

theorem calculate_gini_eq (l : List ℚ) (h1 : nonnegFilter l ≠ [])
    (h2 : (nonnegFilter l).sum ≠ 0) :
    calculate_gini l =
      some (giniNum (sortAsc (nonnegFilter l)) /
        (((nonnegFilter l).length : ℚ) * (nonnegFilter l).sum)) := by
  have hlen : (nonnegFilter l).length ≠ 0 :=
    Nat.pos_iff_ne_zero.mp (List.length_pos.mpr h1)
  have hden : ((sortAsc (nonnegFilter l)).length : ℚ) *
      (sortAsc (nonnegFilter l)).sum ≠ 0 := by
    rw [sortAsc_length, sortAsc_sum]
    exact mul_ne_zero (Nat.cast_ne_zero.mpr hlen) h2
  simp only [calculate_gini, if_neg (not_or.mpr ⟨h1, h2⟩), if_neg hden]
  rw [giniNum, sortAsc_length, sortAsc_sum]

theorem nonnegFilter_idem (l : List ℚ) :
    nonnegFilter (nonnegFilter l) = nonnegFilter l := by
  simp only [nonnegFilter]
  apply List.filter_eq_self.mpr
  intro x hx
  exact (List.mem_filter.mp hx).2

/-! ### Claim theorems -/

/-- C1: for every value collection that, after discarding values strictly
below zero, is non-empty and has positive sum, `calculate_gini` returns
exactly the spec's rank-based estimator: sort the remaining values
ascending, assign 1-based ranks `i = 1..n`, and return
`sum((2*i - n - 1) * value_i) / (n * sum(values))`. -/
theorem C1_gini_matches_spec_formula (l : List ℚ)
    (h1 : nonnegFilter l ≠ []) (h2 : 0 < (nonnegFilter l).sum) :
    calculate_gini l = some (giniSpecFormula (nonnegFilter l)) := by
  rw [calculate_gini_eq l h1 h2.ne']
  simp only [giniSpecFormula, giniNum, sortAsc, List.length_insertionSort]

theorem C1_witness :
    nonnegFilter [500, 300, 100, 100] ≠ [] ∧
    0 < (nonnegFilter [500, 300, 100, 100]).sum ∧
    calculate_gini [500, 300, 100, 100] =
      some (giniSpecFormula (nonnegFilter [500, 300, 100, 100])) :=
  ⟨by norm_num [nonnegFilter, List.filter, List.cons_ne_nil],
   by norm_num [nonnegFilter, List.filter, List.cons_ne_nil],
   C1_gini_matches_spec_formula [500, 300, 100, 100]
     (by norm_num [nonnegFilter, List.filter, List.cons_ne_nil])
     (by norm_num [nonnegFilter, List.filter, List.cons_ne_nil])⟩

/-- C2: for every value collection with strictly positive sum,
`calculate_hhi` returns the sum of the squares of each value normalized to
a percentage of the total on a 0-100 scale,
`sum ((100 * value_i / total)^2)`. -/
theorem C2_hhi_matches_spec_formula (l : List ℚ) (h : 0 < l.sum) :
    calculate_hhi l = (l.map (fun x => (100 * x / l.sum) ^ 2)).sum := by
  simp only [calculate_hhi, if_neg h.ne']
  exact congrArg List.sum (List.map_congr_left (fun x _ => by ring))

theorem C2_witness :
    (0 : ℚ) < ([50, 50] : List ℚ).sum ∧
    calculate_hhi [50, 50] =
      (([50, 50] : List ℚ).map
        (fun x => (100 * x / ([50, 50] : List ℚ).sum) ^ 2)).sum :=
  ⟨by norm_num, C2_hhi_matches_spec_formula [50, 50] (by norm_num)⟩

/-- C5: for every value collection whose sum is exactly zero — including
the empty collection and all-zero collections — `calculate_hhi` returns 0.
The embedded function is total, so no error is signalled. -/
theorem C5_hhi_zero_sum (l : List ℚ) (h : l.sum = 0) : calculate_hhi l = 0 :=
  calculate_hhi_of_sum_zero l h

theorem C5_witness : ([2, -2] : List ℚ).sum = 0 ∧ calculate_hhi [2, -2] = 0 :=
  ⟨by norm_num, C5_hhi_zero_sum [2, -2] (by norm_num)⟩

/-- C6: `calculate_gini` first discards values strictly below zero (its
result on any collection equals its result on the non-negative-filtered
collection, so negatives are discarded, not clamped), and whenever the
filtered collection is empty or has zero sum it returns the NaN sentinel
(`none`) — never zero; the embedded function is total, so no exception. -/
theorem C6_gini_discards_negatives (l : List ℚ) :
    calculate_gini l = calculate_gini (nonnegFilter l) ∧
    ((nonnegFilter l = [] ∨ (nonnegFilter l).sum = 0) →
      calculate_gini l = none) := by
  constructor
  · simp only [calculate_gini, nonnegFilter_idem]
  · exact calculate_gini_none l

theorem C6_witness :
    calculate_gini [-3, -4] = calculate_gini (nonnegFilter [-3, -4]) ∧
    calculate_gini [-3, -4] = none :=
  ⟨(C6_gini_discards_negatives [-3, -4]).1,
   (C6_gini_discards_negatives [-3, -4]).2
     (Or.inl (by norm_num [nonnegFilter, List.filter, List.cons_ne_nil]))⟩

/-- C4: for every non-empty collection of strictly positive values,
`calculate_gini` returns a defined value in `[0, 1)`, and when all values
in the collection are equal (any `n ≥ 1`) it returns exactly 0. -/
theorem C4_gini_range_and_perfect_equality (l : List ℚ) (hne : l ≠ [])
    (hpos : ∀ x ∈ l, 0 < x) :
    (∃ g, calculate_gini l = some g ∧ 0 ≤ g ∧ g < 1) ∧
    ((∀ x ∈ l, ∀ y ∈ l, x = y) → calculate_gini l = some 0) := by
  have hfil : nonnegFilter l = l := by
    simp only [nonnegFilter]
    apply List.filter_eq_self.mpr
    intro x hx
    simpa using (hpos x hx).le
  have hsum : 0 < l.sum := List.sum_pos l hpos hne
  have h1 : nonnegFilter l ≠ [] := by rw [hfil]; exact hne
  have h2 : (nonnegFilter l).sum ≠ 0 := by rw [hfil]; exact hsum.ne'
  have hgini := calculate_gini_eq l h1 h2
  rw [hfil] at hgini
  have hnum0 : 0 ≤ giniNum (sortAsc l) := giniNum_nonneg _ (sortAsc_sorted l)
  have hsnn : ∀ x ∈ sortAsc l, 0 ≤ x :=
    fun x hx => (hpos x ((sortAsc_perm l).subset hx)).le
  have hnumle : giniNum (sortAsc l) ≤
      (((sortAsc l).length : ℚ) - 1) * (sortAsc l).sum := giniNum_le _ hsnn
  rw [sortAsc_length, sortAsc_sum] at hnumle
  have hlenq : (0 : ℚ) < (l.length : ℚ) := by
    exact_mod_cast List.length_pos.mpr hne
  have hden : (0 : ℚ) < (l.length : ℚ) * l.sum := mul_pos hlenq hsum
  constructor
  · refine ⟨giniNum (sortAsc l) / ((l.length : ℚ) * l.sum), hgini,
      div_nonneg hnum0 hden.le, ?_⟩
    rw [div_lt_one hden]
    have hexp : ((l.length : ℚ) - 1) * l.sum = (l.length : ℚ) * l.sum - l.sum := by
      ring
    linarith
  · intro hall
    have hhead : l.head hne ∈ l := List.head_mem hne
    have hs0 : giniNum (sortAsc l) = 0 :=
      giniNum_of_all_eq (l.head hne) _
        (fun y hy => hall y ((sortAsc_perm l).subset hy) (l.head hne) hhead)
    rw [hgini, hs0, zero_div]

theorem C4_witness :
    ([1, 2, 3] : List ℚ) ≠ [] ∧ (∀ x ∈ ([1, 2, 3] : List ℚ), 0 < x) ∧
    ((∃ g, calculate_gini [1, 2, 3] = some g ∧ 0 ≤ g ∧ g < 1) ∧
     ((∀ x ∈ ([1, 2, 3] : List ℚ), ∀ y ∈ ([1, 2, 3] : List ℚ), x = y) →
       calculate_gini [1, 2, 3] = some 0)) :=
  ⟨by norm_num [List.cons_ne_nil], by norm_num,
   C4_gini_range_and_perfect_equality [1, 2, 3]
     (by norm_num [List.cons_ne_nil]) (by norm_num)⟩

/-- C7 counterexample: `calculate_hhi` does not remove negative values.
On `[2, -1]` the total is 1, the percentages are 200 and -100, and the
result is 50000; removing the negative value leaves `[2]`, whose result is
10000. -/
theorem C7_counterexample :
    calculate_hhi [2, -1] ≠ calculate_hhi (nonnegFilter [2, -1]) := by
  have h1 : calculate_hhi [2, -1] = 50000 := by norm_num [calculate_hhi]
  have h2 : nonnegFilter [2, -1] = [2] := by
    norm_num [nonnegFilter, List.filter]
  have h3 : calculate_hhi [2] = 10000 := by norm_num [calculate_hhi]
  rw [h1, h2, h3]
  norm_num

/-- C7 amended: `calculate_hhi` neither excludes negative values nor zeroes
them out — every value, negative or not, enters the total and contributes
its squared percentage — so the claimed equality with the
negatives-removed computation is guaranteed only for collections with no
negative entries, where the removal is a no-op. -/
theorem C7_amended_hhi_no_neg_filtering (l : List ℚ) (h : ∀ x ∈ l, 0 ≤ x) :
    calculate_hhi l = calculate_hhi (nonnegFilter l) := by
  have hfil : nonnegFilter l = l := by
    simp only [nonnegFilter]
    exact List.filter_eq_self.mpr (fun x hx => by simpa using h x hx)
  rw [hfil]

theorem C7_witness :
    (∀ x ∈ ([3, 5] : List ℚ), 0 ≤ x) ∧
    calculate_hhi [3, 5] = calculate_hhi (nonnegFilter [3, 5]) :=
  ⟨by norm_num, C7_amended_hhi_no_neg_filtering [3, 5] (by norm_num)⟩

theorem sum_map_scale (c : ℚ) (l : List ℚ) :
    (l.map (fun x => c * x)).sum = c * l.sum := by
  have := List.sum_map_mul_left l id c
  simpa using this

theorem nonnegFilter_map_scale (c : ℚ) (hc : 0 < c) (l : List ℚ) :
    nonnegFilter (l.map (fun x => c * x)) =
      (nonnegFilter l).map (fun x => c * x) := by
  simp only [nonnegFilter]
  rw [List.filter_map]
  apply congrArg (List.map (fun x => c * x))
  apply List.filter_congr
  intro x _
  simp only [Function.comp_apply, decide_eq_decide]
  exact mul_nonneg_iff_of_pos_left hc

theorem rankSum_map_scale (n c : ℚ) (l : List ℚ) :
    ∀ i : ℚ, rankSum n i (l.map (fun x => c * x)) = c * rankSum n i l := by
  induction l with
  | nil => intro i; simp [rankSum]
  | cons x xs ih =>
    intro i
    simp only [List.map_cons, rankSum, ih]
    ring

theorem sortAsc_map_scale (c : ℚ) (hc : 0 < c) (l : List ℚ) :
    sortAsc (l.map (fun x => c * x)) = (sortAsc l).map (fun x => c * x) := by
  have hperm : (sortAsc (l.map (fun x => c * x))).Perm
      ((sortAsc l).map (fun x => c * x)) :=
    (sortAsc_perm _).trans (((sortAsc_perm l).symm).map _)
  have hsorted2 : ((sortAsc l).map (fun x => c * x)).Sorted (· ≤ ·) :=
    List.Pairwise.map _
      (fun a b hab => mul_le_mul_of_nonneg_left hab hc.le) (sortAsc_sorted l)
  exact List.eq_of_perm_of_sorted hperm (sortAsc_sorted _) hsorted2

/-- C8: multiplying every value by a strictly positive constant `c` leaves
both `calculate_hhi` and `calculate_gini` unchanged (scale invariance). -/
theorem C8_scale_invariance (l : List ℚ) (c : ℚ) (hc : 0 < c) :
    calculate_hhi (l.map (fun x => c * x)) = calculate_hhi l ∧
    calculate_gini (l.map (fun x => c * x)) = calculate_gini l := by
  have hc0 : c ≠ 0 := hc.ne'
  constructor
  · by_cases hs : l.sum = 0
    · rw [calculate_hhi_of_sum_zero l hs,
        calculate_hhi_of_sum_zero _ (by rw [sum_map_scale, hs, mul_zero])]
    · have hs' : (l.map (fun x => c * x)).sum ≠ 0 := by
        rw [sum_map_scale]
        exact mul_ne_zero hc0 hs
      simp only [calculate_hhi, if_neg hs, if_neg hs']
      rw [List.map_map]
      apply congrArg List.sum
      apply List.map_congr_left
      intro x _
      simp only [Function.comp_apply]
      rw [sum_map_scale, mul_div_mul_left x l.sum hc0]
  · have hfeq := nonnegFilter_map_scale c hc l
    by_cases hdeg : nonnegFilter l = [] ∨ (nonnegFilter l).sum = 0
    · have hdeg' : nonnegFilter (l.map (fun x => c * x)) = [] ∨
          (nonnegFilter (l.map (fun x => c * x))).sum = 0 := by
        rw [hfeq]
        rcases hdeg with he | hz
        · left; rw [he]; rfl
        · right; rw [sum_map_scale, hz, mul_zero]
      rw [calculate_gini_none _ hdeg', calculate_gini_none _ hdeg]
    · push_neg at hdeg
      have h1' : nonnegFilter (l.map (fun x => c * x)) ≠ [] := by
        rw [hfeq]
        intro he
        exact hdeg.1 (List.map_eq_nil_iff.mp he)
      have h2' : (nonnegFilter (l.map (fun x => c * x))).sum ≠ 0 := by
        rw [hfeq, sum_map_scale]
        exact mul_ne_zero hc0 hdeg.2
      rw [calculate_gini_eq _ h1' h2', calculate_gini_eq _ hdeg.1 hdeg.2]
      apply congrArg some
      rw [hfeq, sortAsc_map_scale c hc, sum_map_scale, List.length_map,
        giniNum, giniNum, List.length_map, rankSum_map_scale,
        show ((nonnegFilter l).length : ℚ) * (c * (nonnegFilter l).sum) =
          c * (((nonnegFilter l).length : ℚ) * (nonnegFilter l).sum) by ring]
      exact mul_div_mul_left _ _ hc0

theorem C8_witness :
    (0 : ℚ) < 3 ∧
    (calculate_hhi (([1, 2] : List ℚ).map (fun x => 3 * x)) =
        calculate_hhi [1, 2] ∧
     calculate_gini (([1, 2] : List ℚ).map (fun x => 3 * x)) =
        calculate_gini [1, 2]) :=
  ⟨by norm_num, C8_scale_invariance [1, 2] 3 (by norm_num)⟩

/-- C9: `calculate_gini` returns the same result on any permutation of its
input (order-independence despite the internal ascending sort). -/
theorem C9_gini_permutation_invariant (l l2 : List ℚ) (hp : l.Perm l2) :
    calculate_gini l = calculate_gini l2 := by
  have hpf : (nonnegFilter l).Perm (nonnegFilter l2) := hp.filter _
  by_cases hdeg : nonnegFilter l = [] ∨ (nonnegFilter l).sum = 0
  · have hdeg2 : nonnegFilter l2 = [] ∨ (nonnegFilter l2).sum = 0 := by
      rcases hdeg with he | hz
      · left
        exact List.Perm.eq_nil (he ▸ hpf.symm)
      · right
        rw [← hpf.sum_eq]
        exact hz
    rw [calculate_gini_none l hdeg, calculate_gini_none l2 hdeg2]
  · push_neg at hdeg
    have h1' : nonnegFilter l2 ≠ [] := by
      intro he
      exact hdeg.1 (List.Perm.eq_nil (he ▸ hpf))
    have h2' : (nonnegFilter l2).sum ≠ 0 := by
      rw [← hpf.sum_eq]
      exact hdeg.2
    rw [calculate_gini_eq l hdeg.1 hdeg.2, calculate_gini_eq l2 h1' h2']
    have hsort : sortAsc (nonnegFilter l) = sortAsc (nonnegFilter l2) :=
      List.eq_of_perm_of_sorted
        ((sortAsc_perm _).trans (hpf.trans (sortAsc_perm _).symm))
        (sortAsc_sorted _) (sortAsc_sorted _)
    rw [hsort, hpf.length_eq, hpf.sum_eq]

theorem C9_witness : calculate_gini [5, 1, 9] = calculate_gini [9, 1, 5] :=
  C9_gini_permutation_invariant [5, 1, 9] [9, 1, 5]
    (List.reverse_perm [5, 1, 9]).symm

/-- C10: the final denominator-zero safeguard in `calculate_gini` is dead
code: the function agrees everywhere with the variant that omits the
safeguard, and for every input passing the initial guard (filtered list
non-empty with non-zero sum) the denominator `n * sum` is non-zero. -/
theorem C10_safeguard_is_dead_code (l : List ℚ) :
    calculate_gini l = calculate_gini_unguarded l ∧
    (nonnegFilter l ≠ [] → (nonnegFilter l).sum ≠ 0 →
      ((sortAsc (nonnegFilter l)).length : ℚ) *
        (sortAsc (nonnegFilter l)).sum ≠ 0) := by
  have hden : nonnegFilter l ≠ [] → (nonnegFilter l).sum ≠ 0 →
      ((sortAsc (nonnegFilter l)).length : ℚ) *
        (sortAsc (nonnegFilter l)).sum ≠ 0 := by
    intro h1 h2
    rw [sortAsc_length, sortAsc_sum]
    exact mul_ne_zero
      (Nat.cast_ne_zero.mpr (Nat.pos_iff_ne_zero.mp (List.length_pos.mpr h1))) h2
  refine ⟨?_, hden⟩
  by_cases hdeg : nonnegFilter l = [] ∨ (nonnegFilter l).sum = 0
  · simp only [calculate_gini, calculate_gini_unguarded, if_pos hdeg]
  · push_neg at hdeg
    simp only [calculate_gini, calculate_gini_unguarded,
      if_neg (not_or.mpr hdeg), if_neg (hden hdeg.1 hdeg.2)]

/-- C3: for every collection of non-negative values, `calculate_hhi` lies
in `[0, 10000]`, and equals 10000 exactly when precisely one value in the
collection is positive (all others, being non-negative, are zero). -/
theorem C3_hhi_bounds_and_max (l : List ℚ) (h : ∀ x ∈ l, 0 ≤ x) :
    (0 ≤ calculate_hhi l ∧ calculate_hhi l ≤ 10000) ∧
    (calculate_hhi l = 10000 ↔ (l.filter (fun x => 0 < x)).length = 1) := by
  by_cases hs : l.sum = 0
  · rw [calculate_hhi_of_sum_zero l hs]
    have hall : ∀ x ∈ l, x = 0 := (sum_eq_zero_iff_of_nonneg l h).mp hs
    have hfil : l.filter (fun x => 0 < x) = [] := by
      rw [List.filter_eq_nil_iff]
      intro x hx
      simp [hall x hx]
    refine ⟨⟨le_refl 0, by norm_num⟩, ?_⟩
    rw [hfil]
    norm_num
  · have hspos : 0 < l.sum := lt_of_le_of_ne (List.sum_nonneg h) (Ne.symm hs)
    have hsq : 0 ≤ (l.map (fun x => x ^ 2)).sum :=
      List.sum_nonneg (fun y hy => by
        rcases List.mem_map.mp hy with ⟨x, _, hxy⟩
        rw [← hxy]; positivity)
    have hle : (l.map (fun x => x ^ 2)).sum ≤ l.sum ^ 2 := sum_sq_le_sq_sum l h
    rw [calculate_hhi_eq l hs]
    have hs2 : (0 : ℚ) < l.sum ^ 2 := by positivity
    constructor
    · constructor
      · positivity
      · rw [div_mul_eq_mul_div, div_le_iff₀ hs2]
        nlinarith
    · rw [← sum_sq_eq_sq_sum_iff l h hspos]
      rw [div_mul_eq_mul_div, div_eq_iff hs2.ne']
      constructor
      · intro heq
        nlinarith
      · intro heq
        rw [heq]

theorem C3_witness :
    (∀ x ∈ ([100, 0, 0] : List ℚ), 0 ≤ x) ∧
    (0 ≤ calculate_hhi [100, 0, 0] ∧ calculate_hhi [100, 0, 0] ≤ 10000) ∧
    (calculate_hhi [100, 0, 0] = 10000 ↔
      (([100, 0, 0] : List ℚ).filter (fun x => 0 < x)).length = 1) :=
  ⟨by norm_num, C3_hhi_bounds_and_max [100, 0, 0] (by norm_num)⟩

theorem C10_witness :
    calculate_gini [4] = calculate_gini_unguarded [4] ∧
    ((sortAsc (nonnegFilter [4])).length : ℚ) *
      (sortAsc (nonnegFilter [4])).sum ≠ 0 :=
  ⟨(C10_safeguard_is_dead_code [4]).1,
   (C10_safeguard_is_dead_code [4]).2
     (by norm_num [nonnegFilter, List.filter, List.cons_ne_nil])
     (by norm_num [nonnegFilter, List.filter, List.cons_ne_nil])⟩

end Restaking
